import Mathlib

/-!
Verification development for the pycrostates clustering engine
(`src/pycrostates/clustering/clustering.py`).

The numeric kernels are shallowly embedded over `ℝ`: a numpy array of shape
(m, n) is a function `Fin m → Fin n → ℝ`, `np.argmax`/`np.argmin` are
first-occurrence extrema folds, `np.linalg.norm` and `np.std` use
`Real.sqrt`.  Division by zero follows Lean's convention `x / 0 = 0`; in the
places where numpy would produce NaN this convention is noted next to the
definition.  Loops that the source bounds by `max_iter` are embedded
structurally; the unbounded `while True` of `_segment` is embedded with
explicit fuel, so that "the loop terminates" is `∃ fuel, result = some _`.
-/

open Classical
open scoped BigOperators

noncomputable section

namespace Pycrostates

/-- Matrix of shape (m, n): row index first, as in numpy. -/
abbrev Mat (m n : ℕ) := Fin m → Fin n → ℝ

/-- Arithmetic mean of a vector, `np.mean`.  For `n = 0` this is `0/0 = 0`. -/
def npMean {n : ℕ} (v : Fin n → ℝ) : ℝ := (∑ i, v i) / n

/-- Euclidean norm of a vector, `np.linalg.norm`. -/
def npNorm {n : ℕ} (v : Fin n → ℝ) : ℝ := Real.sqrt (∑ i, v i ^ 2)

/-- Population standard deviation of a vector, `np.std`. -/
def npStd {n : ℕ} (v : Fin n → ℝ) : ℝ :=
  Real.sqrt ((∑ i, (v i - npMean v) ^ 2) / n)

/-- First index attaining the maximum, `np.argmax` (ties keep the earlier
index, as numpy returns the first occurrence). -/
def npArgmax {n : ℕ} (g : Fin (n + 1) → ℝ) : Fin (n + 1) :=
  (List.finRange (n + 1)).foldl (fun b i => if g b < g i then i else b) 0

/-- First index attaining the minimum, `np.argmin`. -/
def npArgmin {n : ℕ} (g : Fin (n + 1) → ℝ) : Fin (n + 1) :=
  (List.finRange (n + 1)).foldl (fun b i => if g i < g b then i else b) 0

/-! ## The fitted-model state and `BaseClustering.reorder`

`BaseClustering` keeps `n_clusters`, `cluster_centers`, `GEV`, `labels` and
the fit flag.  `reorder` validates the order list against
`np.arange(n_clusters)` and permutes the rows of `cluster_centers` in place;
on a failed validation it raises before touching anything. -/

/-- Fitted-model state of `BaseClustering`/`ModKMeans`: the cluster-center
matrix (K rows, C channels), the stored global explained variance, the
stored labels and the `current_fit` tag. -/
structure ClusterModel (K C : ℕ) where
  cluster_centers : Mat K C
  GEV : ℝ
  labels : Option (List ℕ)
  current_fit : String

/-- Validation performed by `reorder`: `np.sort(order)` must coincide with
`np.arange(0, n_clusters, 1)` elementwise (`(np.sort(order) != np.arange(..)).any()`
raises otherwise; a length mismatch raises a broadcast error, also a
`ValueError`).  Equivalently the list must sort to `[0, …, K-1]`. -/
def validOrder (order : List ℕ) (K : ℕ) : Prop :=
  order.mergeSort (· ≤ ·) = List.range K

instance (order : List ℕ) (K : ℕ) : Decidable (validOrder order K) := by
  unfold validOrder; infer_instance

/-- Embedding of `BaseClustering.reorder`.  Returns the state after the call
together with `true` when the call raised (`ValueError`); a raise happens
before the assignment to `cluster_centers`, so the state is returned
untouched in that case. -/
def reorderRun {K C : ℕ} (st : ClusterModel K C) (order : List ℕ) :
    ClusterModel K C × Bool :=
  if validOrder order K then
    ({ st with
        cluster_centers := fun i c =>
          if h : order.getD i.val 0 < K then st.cluster_centers ⟨order.getD i.val 0, h⟩ c
          else 0 },
      false)
  else (st, true)

/-! ## The competitive segmentation solver `_segment`

`_segment(data, states, half_window_size, factor, crit)` normalises the rows
of `states` and `data` by their own standard deviation, computes initial
labels by polarity-invariant nearest-center assignment, then iterates a
simultaneous smoothed relabeling (`while True`) until
`|Su - S0| <= |crit * Su|`; finally labels are shifted by one and the first
and last constant runs are zeroed.  `Nu = K + 1` states, `Ne` channels,
`Nt` samples.  The `while True` loop has no iteration cap in the source; it
is embedded with fuel (`none` = the loop has not terminated within the given
number of iterations). -/

/-- Row-normalised states: `states = (states.T / np.std(states, axis=1)).T`. -/
def segStates {Nu Ne : ℕ} (states : Mat Nu Ne) : Mat Nu Ne :=
  fun u c => states u c / npStd (states u)

/-- Row-normalised data: `data = (data.T / np.std(data, axis=1)).T`. -/
def segData {Ne Nt : ℕ} (data : Mat Ne Nt) : Mat Ne Nt :=
  fun c t => data c t / npStd (data c)

/-- Per-sample variance `Vvar = np.sum(data * data, axis=0)` on the
normalised data. -/
def segVvar {Ne Nt : ℕ} (data : Mat Ne Nt) : Fin Nt → ℝ :=
  fun t => ∑ c, segData data c t ^ 2

/-- The activation `np.dot(states, data)` on the normalised inputs. -/
def segSD {K Ne Nt : ℕ} (data : Mat Ne Nt) (states : Mat (K + 1) Ne) :
    Fin (K + 1) → Fin Nt → ℝ :=
  fun u t => ∑ c, segStates states u c * segData data c t

/-- Initial labels: `np.argmax(np.abs(np.dot(states, data)), axis=0)`. -/
def segLabels0 {K Ne Nt : ℕ} (data : Mat Ne Nt) (states : Mat (K + 1) Ne) :
    Fin Nt → Fin (K + 1) :=
  fun t => npArgmax fun u => |segSD data states u t|

/-- The per-sample projection `np.sum(np.dot(w.T, states).T * data, axis=0)`
under a label assignment (`w` is the one-hot matrix of the labels). -/
def segProj {K Ne Nt : ℕ} (data : Mat Ne Nt) (states : Mat (K + 1) Ne)
    (lab : Fin Nt → Fin (K + 1)) : Fin Nt → ℝ :=
  fun t => ∑ c, (∑ u, (if lab t = u then (1 : ℝ) else 0) * segStates states u c)
      * segData data c t

/-- Initial unexplained variance
`e = np.sum(Vvar - np.sum(np.dot(w.T, states).T * data, axis=0)**2 / (Nt*(Ne-1)))`
(the division is inside the sum here, unlike in `Su`). -/
def segE {K Ne Nt : ℕ} (data : Mat Ne Nt) (states : Mat (K + 1) Ne) : ℝ :=
  ∑ t, (segVvar data t -
    segProj data states (segLabels0 data states) t ^ 2 / ((Nt : ℝ) * ((Ne : ℝ) - 1)))

/-- Sliding-window label tally `Nb = scipy.signal.convolve2d(w, window, mode='same')`
with the all-ones window of width `2*half_window_size+1`. -/
def segNb {K Nt : ℕ} (h : ℕ) (lab : Fin Nt → Fin (K + 1)) :
    Fin (K + 1) → Fin Nt → ℝ :=
  fun u t => ∑ j, if lab j = u ∧ t.val ≤ j.val + h ∧ j.val ≤ t.val + h then (1 : ℝ) else 0

/-- One simultaneous relabeling pass: each sample moves to the center of
minimal score `x = (Vvar - (S·D)²) / (2 e (Ne-1)) - factor * Nb`. -/
def segStep {K Ne Nt : ℕ} (data : Mat Ne Nt) (states : Mat (K + 1) Ne)
    (h : ℕ) (factor : ℝ) (lab : Fin Nt → Fin (K + 1)) : Fin Nt → Fin (K + 1) :=
  fun t => npArgmin fun u =>
    (segVvar data t - segSD data states u t ^ 2) /
        (2 * segE data states * ((Ne : ℝ) - 1))
      - factor * segNb h lab u t

/-- Total unexplained variance after a pass:
`Su = np.sum(Vvar - np.sum(...)**2) / (Nt * (Ne - 1))` (division outside the
sum). -/
def segSu {K Ne Nt : ℕ} (data : Mat Ne Nt) (states : Mat (K + 1) Ne)
    (lab : Fin Nt → Fin (K + 1)) : ℝ :=
  (∑ t, (segVvar data t - segProj data states lab t ^ 2)) / ((Nt : ℝ) * ((Ne : ℝ) - 1))

/-- The `while True` loop of `_segment`, with explicit fuel.  The state is
the current labels and the previous total variance `S0` (initially `0`);
each pass relabels, recomputes `Su` and stops when `|Su - S0| ≤ |crit * Su|`. -/
def segLoop {K Ne Nt : ℕ} (data : Mat Ne Nt) (states : Mat (K + 1) Ne)
    (h : ℕ) (factor crit : ℝ) :
    ℕ → (Fin Nt → Fin (K + 1)) → ℝ → Option (Fin Nt → Fin (K + 1))
  | 0, _, _ => none
  | n + 1, lab, S0 =>
    let lab' := segStep data states h factor lab
    let su := segSu data states lab'
    if |su - S0| ≤ |crit * su| then some lab'
    else segLoop data states h factor crit n lab' su

/-- The label loop of `_segment` started from the initial assignment. -/
def segRun {K Ne Nt : ℕ} (data : Mat Ne Nt) (states : Mat (K + 1) Ne)
    (h : ℕ) (factor crit : ℝ) (fuel : ℕ) : Option (Fin Nt → Fin (K + 1)) :=
  segLoop data states h factor crit fuel (segLabels0 data states) 0

/-- The leading while loop of `_segment`'s postprocessing: starting from the
head, zero every entry equal to the first label, but never the final entry
(`while labels[i] == first_label and i < len(labels) - 1`). -/
def zeroLeadAux (first : ℕ) : List ℕ → List ℕ
  | [] => []
  | [x] => [x]
  | x :: y :: rest => if x = first then 0 :: zeroLeadAux first (y :: rest) else x :: y :: rest

/-- Zeroes the leading constant run (except, possibly, the last entry). -/
def zeroLead : List ℕ → List ℕ
  | [] => []
  | x :: rest => zeroLeadAux x (x :: rest)

/-- The trailing while loop: the same walk from the end, never zeroing the
first entry (`while labels[i] == last_label and i > 0`). -/
def zeroTrail (l : List ℕ) : List ℕ := (zeroLead l.reverse).reverse

/-- Embedding of `_segment`: the converged labels, shifted by one so that `0`
means unlabeled, with the first and last runs zeroed.  `none` when the
unbounded loop has not converged within `fuel` passes. -/
def segment {K Ne Nt : ℕ} (data : Mat Ne Nt) (states : Mat (K + 1) Ne)
    (half_window_size : ℕ) (factor crit : ℝ) (fuel : ℕ) : Option (List ℕ) :=
  (segRun data states half_window_size factor crit fuel).map fun lab =>
    zeroTrail (zeroLead (List.ofFn fun t => (lab t).val + 1))

/-! ## The modified K-means solver `_compute_maps`

`_compute_maps(data, n_states, max_iter, thresh, random_state)` draws
`n_states` distinct random sample indices for the initial maps, normalises
them, and iterates: assign every sample to the map of maximal absolute
activation, recompute each map as the activation-weighted sum of its
samples renormalised (zero when no sample is assigned), compute the
residual, and stop when `prev_residual - residual < thresh * residual`
(`prev_residual` starts at `np.inf`, modelled as `none`).  `n_states = K+1`. -/

/-- One iteration of the modified K-means loop: returns the updated maps,
the segmentation that produced them, and the residual. -/
def kmeansIter {C T K : ℕ} (data : Mat C T) (maps : Mat (K + 1) C) :
    Mat (K + 1) C × (Fin T → Fin (K + 1)) × ℝ :=
  let activation : Fin (K + 1) → Fin T → ℝ := fun k t => ∑ c, maps k c * data c t
  let seg : Fin T → Fin (K + 1) := fun t => npArgmax fun k => |activation k t|
  let wsum : Mat (K + 1) C := fun k c => ∑ t, if seg t = k then data c t * activation k t else 0
  let maps' : Mat (K + 1) C := fun k =>
    if ∃ t, seg t = k then (fun c => wsum k c / npNorm (wsum k)) else 0
  let act_sum_sq := ∑ t, (∑ c, maps' (seg t) c * data c t) ^ 2
  let residual := |(∑ c, ∑ t, data c t ^ 2) - act_sum_sq| / ((T : ℝ) * ((C : ℝ) - 1))
  (maps', seg, residual)

/-- The convergence test `(prev_residual - residual) < (thresh * residual)`;
`prev_residual = np.inf` before the first iteration (`none`), and
`∞ - r < thresh * r` is false for finite `r`. -/
def convBreak (prev : Option ℝ) (residual thresh : ℝ) : Prop :=
  match prev with
  | none => False
  | some p => p - residual < thresh * residual

/-- The `for _ in range(max_iter)` loop of `_compute_maps`.  Returns the maps
after the loop together with the segmentation used by the final executed
update (at fuel `0` no update ran and the current assignment is reported). -/
def kmeansLoop {C T K : ℕ} (data : Mat C T) (thresh : ℝ) :
    ℕ → Mat (K + 1) C → Option ℝ → Mat (K + 1) C × (Fin T → Fin (K + 1))
  | 0, maps, _ => (maps, fun t => npArgmax fun k => |∑ c, maps k c * data c t|)
  | n + 1, maps, prev =>
    let r := kmeansIter data maps
    if convBreak prev r.2.2 thresh then (r.1, r.2.1)
    else
      match n with
      | 0 => (r.1, r.2.1)
      | m + 1 => kmeansLoop data thresh (m + 1) r.1 (some r.2.2)

/-- Core of `_compute_maps` once the initial sample indices are drawn: the
drawn columns are normalised to unit length and the K-means loop runs. -/
def compute_maps_core {C T K : ℕ} (data : Mat C T) (init : Fin (K + 1) → Fin T)
    (max_iter : ℕ) (thresh : ℝ) : Mat (K + 1) C × (Fin T → Fin (K + 1)) :=
  let maps0 : Mat (K + 1) C := fun k c =>
    data c (init k) / npNorm (fun c' => data c' (init k))
  kmeansLoop data thresh max_iter maps0 none

/-! ### Random state

`np.random.RandomState` is modelled as a deterministic generator state: a
seed plus a draw counter.  The model keeps the two facts the claims rest on:
constructing `RandomState(seed)` always yields the same state, and drawing
advances the state.  The distribution itself is not modelled. -/

/-- Modelled deterministic stand-in for `np.random.RandomState`. -/
structure RState where
  seed : ℕ
  counter : ℕ
deriving DecidableEq

/-- Modelled `np.random.RandomState(s)`: a fresh generator from an integer
seed. -/
def RState.init (s : ℕ) : RState := ⟨s, 0⟩

/-- Drawing `k` values advances the generator state. -/
def RState.advance (r : RState) (k : ℕ) : RState := ⟨r.seed, r.counter + k⟩

/-- The `random_state` argument of `_compute_maps` / `ModKMeans`: either an
explicit integer seed or a generator instance.  (`None` is the
nondeterministic case and is outside this model.) -/
inductive RSParam where
  | seed (s : ℕ)
  | state (r : RState)
deriving DecidableEq

/-- The generator `_compute_maps` actually uses:
`if not isinstance(random_state, np.random.RandomState): random_state = np.random.RandomState(random_state)` —
an integer seed always constructs a fresh generator. -/
def RSParam.toState : RSParam → RState
  | .seed s => RState.init s
  | .state r => r

/-- The caller's `random_state` attribute after the call: an integer stays an
integer (the fresh local generator is dropped), a generator instance is
mutated in place. -/
def RSParam.after : RSParam → RState → RSParam
  | .seed s, _ => .seed s
  | .state _, r' => .state r'

/-- Modelled `rs.choice(n, size=k, replace=False)`: raises when `k > n`
(numpy: Cannot take a larger sample than population when replace is False),
otherwise draws `k` distinct indices below `n` determined by the generator
state, and advances the state. -/
def npChoice (rs : RState) (n k : ℕ) : Except String (List ℕ × RState) :=
  if n < k then .error "Cannot take a larger sample than population when replace is False"
  else .ok ((List.range k).map fun i => (rs.seed + rs.counter + i) % n, rs.advance k)

/-- Full `_compute_maps` with the random draw: fails exactly when the draw
does (`T < n_states`), and returns the maps, the final assignment, and the
`random_state` as the caller observes it afterwards. -/
def compute_mapsE {C T K : ℕ} (data : Mat C T) (max_iter : ℕ) (thresh : ℝ)
    (rsp : RSParam) :
    Except String ((Mat (K + 1) C × (Fin T → Fin (K + 1))) × RSParam) :=
  let rs := rsp.toState
  if h : T < K + 1 then
    .error "Cannot take a larger sample than population when replace is False"
  else
    .ok (compute_maps_core data
          (fun k => ⟨(rs.seed + rs.counter + k.val) % T,
            Nat.mod_lt _ (lt_of_lt_of_le (Nat.succ_pos K) (not_lt.mp h))⟩)
          max_iter thresh,
        rsp.after (rs.advance (K + 1)))

/-! ## `_corr_vectors`, `_run_mod_kmeans` and the multi-restart loop -/

/-- Embedding of `_corr_vectors(A, B, axis=0)`: demean and normalise each
column pair, then sum the products per column.  In this model a
zero-variance column gives `0` directly (numpy produces NaN there and
`np.nan_to_num` maps it to `0`, the same value). -/
def corr_vectors {n m : ℕ} (A B : Mat n m) : Fin m → ℝ := fun j =>
  ∑ i, ((A i j - npMean fun i' => A i' j) /
          npNorm fun i' => A i' j - npMean fun i'' => A i'' j)
     * ((B i j - npMean fun i' => B i' j) /
          npNorm fun i' => B i' j - npMean fun i'' => B i'' j)

/-- Embedding of `ModKMeans._run_mod_kmeans` for a given initial draw:
runs `_compute_maps`, recomputes the assignment from the final maps, and
returns `(gev, maps, segmentation)` where
`gev = np.sum((data * map_corr) ** 2) / gfp_sum_sq`. -/
def run_mod_kmeans {C T K : ℕ} (data : Mat C T) (init : Fin (K + 1) → Fin T)
    (max_iter : ℕ) (thresh : ℝ) : ℝ × Mat (K + 1) C × (Fin T → Fin (K + 1)) :=
  let gfp_sum_sq := ∑ c, ∑ t, data c t ^ 2
  let maps := (compute_maps_core data init max_iter thresh).1
  let activation : Fin (K + 1) → Fin T → ℝ := fun k t => ∑ c, maps k c * data c t
  let seg : Fin T → Fin (K + 1) := fun t => npArgmax fun k => |activation k t|
  let map_corr := corr_vectors data fun c t => maps (seg t) c
  let gev := (∑ t, ∑ c, (data c t * map_corr t) ^ 2) / gfp_sum_sq
  (gev, maps, seg)

/-- `_run_mod_kmeans` with the random draw, threading the random state the
way `_do_fit` observes it. -/
def run_mod_kmeansE {C T K : ℕ} (data : Mat C T) (max_iter : ℕ) (thresh : ℝ)
    (rsp : RSParam) :
    Except String ((ℝ × Mat (K + 1) C × (Fin T → Fin (K + 1))) × RSParam) :=
  match compute_mapsE (K := K) data max_iter thresh rsp with
  | .error e => .error e
  | .ok (_, rsp') =>
    -- the run is a function of the drawn initialization; re-expressed through
    -- `run_mod_kmeans` over the same draw
    let rs := rsp.toState
    if h : T < K + 1 then .error "Cannot take a larger sample than population when replace is False"
    else
      .ok (run_mod_kmeans data
            (fun k => ⟨(rs.seed + rs.counter + k.val) % T,
              Nat.mod_lt _ (lt_of_lt_of_le (Nat.succ_pos K) (not_lt.mp h))⟩)
            max_iter thresh,
          rsp')

/-- The sequential (`n_jobs == 1`) restart sequence of `ModKMeans._do_fit`:
each of the `n_init` restarts calls `_run_mod_kmeans(data)` with
`self.random_state` as it then stands. -/
def doFitRuns {C T K : ℕ} (data : Mat C T) (max_iter : ℕ) (thresh : ℝ) :
    RSParam → ℕ →
    Except String (List (ℝ × Mat (K + 1) C × (Fin T → Fin (K + 1))))
  | _, 0 => .ok []
  | rsp, n + 1 =>
    match run_mod_kmeansE (K := K) data max_iter thresh rsp with
    | .error e => .error e
    | .ok (r, rsp') =>
      match doFitRuns data max_iter thresh rsp' n with
      | .error e => .error e
      | .ok rest => .ok (r :: rest)

/-- The selection loop of `_do_fit`: `best_gev = 0`, then for each run
`if gev > best_gev: best_gev, best_maps, best_segmentation = ...`.  When no
run beats the initial `0`, `best_maps` is never bound (the source raises
`NameError` at the return); this is the `none` value. -/
def selectBest {α : Type _} : List (ℝ × α) → ℝ → Option (ℝ × α) → Option (ℝ × α)
  | [], _, best => best
  | r :: rest, best_gev, best =>
    if best_gev < r.1 then selectBest rest r.1 (some r)
    else selectBest rest best_gev best

/-- Embedding of `ModKMeans._do_fit` (sequential branch): run the restarts
and keep the best by the strict `gev > best_gev` test. -/
def doFit {C T K : ℕ} (data : Mat C T) (max_iter : ℕ) (thresh : ℝ)
    (rsp : RSParam) (n_init : ℕ) :
    Except String (Option (ℝ × Mat (K + 1) C × (Fin T → Fin (K + 1)))) :=
  match doFitRuns (K := K) data max_iter thresh rsp n_init with
  | .error e => .error e
  | .ok runs => .ok (selectBest (runs.map fun r => (r.1, r.2)) 0 none)

/-! ## `BaseClustering.predict` with bad-annotation rejection

With `reject_by_annotation` and a nonempty annotation list, `predict` builds
`onsets = [o₁, …, o_k, T - 1]` and `ends = [0, e₁, …, e_k]`, starts from an
all-zero segmentation and, for every pair `(onset, end)`, writes
`_segment(data[:, end:onset], …)` into `segmentation[end:onset]` whenever
`onset - end >= 2 * half_window_size + 1`; other stretches stay zero. -/

/-- A matrix restricted to the sample window `[lo, lo+len)`. -/
def sliceCols {Ne Nt : ℕ} (data : Mat Ne Nt) (lo len : ℕ) : Mat Ne len :=
  fun c j => if h : lo + j.val < Nt then data c ⟨lo + j.val, h⟩ else 0

/-- Writes a list into positions `[lo, lo + src.length)` of `dst`. -/
def splice (dst : List ℕ) (lo : ℕ) (src : List ℕ) : List ℕ :=
  dst.mapIdx fun i v => if lo ≤ i ∧ i < lo + src.length then src.getD (i - lo) 0 else v

/-- The retained-interval loop of `predict`: one `(onset, end)` pair at a
time, in order.  `none` when some processed sub-interval's `_segment` loop
does not converge within `fuel`. -/
def predictPairs {K Ne Nt : ℕ} (data : Mat Ne Nt) (states : Mat (K + 1) Ne)
    (h : ℕ) (factor crit : ℝ) (fuel : ℕ) :
    List (ℕ × ℕ) → List ℕ → Option (List ℕ)
  | [], acc => some acc
  | (onset, e) :: rest, acc =>
    if 2 * h + 1 ≤ onset - e then
      match segment (sliceCols data e (onset - e)) states h factor crit fuel with
      | none => none
      | some sub => predictPairs data states h factor crit fuel rest (splice acc e sub)
    else predictPairs data states h factor crit fuel rest acc

/-- Embedding of the annotated branch of `predict`: `onsets` and `ends` are
the BAD-annotation boundaries (sorted, disjoint), the processed pairs are
`zip(onsets ++ [Nt - 1], 0 :: ends)`, and the output starts as
`np.zeros(Nt)`. -/
def predictAnnotated {K Ne Nt : ℕ} (data : Mat Ne Nt) (states : Mat (K + 1) Ne)
    (h : ℕ) (factor crit : ℝ) (fuel : ℕ) (onsets ends : List ℕ) :
    Option (List ℕ) :=
  predictPairs data states h factor crit fuel
    ((onsets ++ [Nt - 1]).zip (0 :: ends))
    (List.replicate Nt 0)

/-! ## A concrete segmentation instance

Two states and four samples, all of unit row standard deviation, used to
analyse the termination behaviour of `_segment`'s unbounded loop. -/

/-- The sample polarity pattern `(1, 1, -1, -1)`. -/
def c3eps (t : Fin 4) : ℝ := if t.val < 2 then 1 else -1

/-- Two states of unit row standard deviation: `(1, -1)` and `(2, 0)`. -/
def c3states : Mat 2 2 := fun u c =>
  if u.val = 0 then (if c.val = 0 then 1 else -1)
  else (if c.val = 0 then 2 else 0)

/-- Two identical channels carrying the pattern `(1, 1, -1, -1)` (unit row
standard deviation). -/
def c3data : Mat 2 4 := fun _ t => c3eps t

/-! ## Sample-column sign flips (polarity) -/

/-- `data` with the single sample column `t0` negated. -/
def flipCol {C T : ℕ} (data : Mat C T) (t0 : Fin T) : Mat C T :=
  fun c t => if t = t0 then -data c t else data c t

/-- The per-column sign pattern of `flipCol`: `-1` at `t0`, `1` elsewhere. -/
def colSign {T : ℕ} (t0 : Fin T) : Fin T → ℝ :=
  fun t => if t = t0 then -1 else 1

/-! ## Theorems -/

lemma validOrder_iff_perm (order : List ℕ) (K : ℕ) :
    validOrder order K ↔ order.Perm (List.range K) := by
  unfold validOrder
  constructor
  · intro h
    exact h ▸ (List.mergeSort_perm order _).symm
  · intro h
    haveI : IsAntisymm ℕ (fun a b => (decide (a ≤ b) = true)) :=
      ⟨fun a b ha hb => le_antisymm (by simpa using ha) (by simpa using hb)⟩
    refine List.eq_of_perm_of_sorted (r := fun a b => (decide (a ≤ b) = true))
      ((List.mergeSort_perm order _).trans h) ?_ ?_
    · exact List.sorted_mergeSort (fun a b c => by simpa using le_trans)
        (fun a b => by simpa using le_total a b) order
    · exact List.Pairwise.imp (fun hab => by simpa using hab) (List.sorted_le_range K)

/-- C7 (amended): the fit's random initial draw — and with it `fit` itself —
fails with the sample-size error precisely captured by `npChoice` whenever
the number of samples is smaller than `n_states`; this is the only
precondition `_compute_maps` checks (no check exists for `C < 2`). -/
theorem C7_dimension_error {C T K : ℕ} (data : Mat C T) (max_iter : ℕ) (thresh : ℝ)
    (rsp : RSParam) (h : T < K + 1) :
    ∃ e, compute_mapsE (K := K) data max_iter thresh rsp = .error e := by
  unfold compute_mapsE
  exact ⟨_, dif_pos h⟩

/-- Witness for C7: with one channel, zero samples and one requested state
the hypothesis `T < n_states` holds and the call errors. -/
theorem C7_dimension_error_witness :
    ∃ e, compute_mapsE (K := 0) (fun (_ : Fin 1) (_ : Fin 0) => (0 : ℝ)) 1 1
      (.seed 0) = .error e :=
  C7_dimension_error _ 1 1 (.seed 0) (by norm_num)

/-- Counterexample for C7 as stated: a single-channel input (`C = 1 < 2`)
with `T = n_states = 1` raises no dimension error at all — `_compute_maps`
returns normally (`C < 2` is never checked; the `C - 1` divisions only
produce non-finite residuals). -/
theorem C7_counterexample :
    ∃ v, compute_mapsE (K := 0) (fun (_ : Fin 1) (_ : Fin 1) => (1 : ℝ)) 1 1
      (.seed 0) = .ok v := by
  unfold compute_mapsE
  exact ⟨_, dif_neg (by norm_num)⟩

/-- The random-state parameter `_do_fit` passes to the next restart: an
integer seed is left as the very same integer seed. -/
lemma run_mod_kmeansE_seed_after {C T K : ℕ} (data : Mat C T) (max_iter : ℕ)
    (thresh : ℝ) (s : ℕ) (r : ℝ × Mat (K + 1) C × (Fin T → Fin (K + 1)))
    (rsp' : RSParam)
    (h : run_mod_kmeansE (K := K) data max_iter thresh (.seed s) = .ok (r, rsp')) :
    rsp' = .seed s := by
  unfold run_mod_kmeansE compute_mapsE at h
  by_cases hT : T < K + 1
  · simp [hT] at h
  · simp [hT, RSParam.after] at h
    exact h.2.symm

/-- C8: with an explicit integer seed and sequential execution, every one of
the `n_init` restarts of `_do_fit` re-derives the same fresh generator from
the same integer, so the whole restart list is one run repeated
(`List.replicate`) — restarts do not draw their own initializations. -/
theorem C8_int_seed_restarts_identical {C T K : ℕ} (data : Mat C T) (max_iter : ℕ)
    (thresh : ℝ) (s : ℕ) (n : ℕ) :
    doFitRuns (K := K) data max_iter thresh (.seed s) n =
      match run_mod_kmeansE (K := K) data max_iter thresh (.seed s) with
      | .error e => if n = 0 then .ok [] else .error e
      | .ok (r, _) => .ok (List.replicate n r) := by
  induction n with
  | zero =>
    cases hr : run_mod_kmeansE (K := K) data max_iter thresh (.seed s) with
    | error e => simp [doFitRuns]
    | ok v => simp [doFitRuns, List.replicate]
  | succ m ih =>
    cases hr : run_mod_kmeansE (K := K) data max_iter thresh (.seed s) with
    | error e => simp [doFitRuns, hr]
    | ok v =>
      obtain ⟨r, rsp'⟩ := v
      have hafter := run_mod_kmeansE_seed_after data max_iter thresh s r rsp' hr
      subst hafter
      rw [hr] at ih
      simp only [doFitRuns, hr, ih]
      simp [List.replicate]

/-- Once a best run is held, `selectBest` keeps it unless a strictly larger
GEV appears; the kept run is the first one attaining the final maximum. -/
lemma selectBest_some_spec {α : Type _} :
    ∀ (l : List (ℝ × α)) (b : ℝ × α),
      (selectBest l b.1 (some b) = some b ∧ ∀ x ∈ l, x.1 ≤ b.1) ∨
      (∃ i res, l.get? i = some res ∧ selectBest l b.1 (some b) = some res ∧
        b.1 < res.1 ∧ (∀ j r', l.get? j = some r' → r'.1 ≤ res.1) ∧
        (∀ j r', j < i → l.get? j = some r' → r'.1 < res.1)) := by
  intro l
  induction l with
  | nil => intro b; left; exact ⟨rfl, by simp⟩
  | cons r rest ih =>
    intro b
    by_cases hlt : b.1 < r.1
    · have hstep : selectBest (r :: rest) b.1 (some b) = selectBest rest r.1 (some r) := by
        simp [selectBest, hlt]
      rcases ih r with ⟨heq, hall⟩ | ⟨i, res, hget, heq, hbr, hall, hfirst⟩
      · right
        refine ⟨0, r, rfl, hstep.trans heq, hlt, ?_, ?_⟩
        · intro j r' hj
          cases j with
          | zero =>
            rw [List.get?_cons_zero] at hj
            rw [(Option.some.inj hj).symm]
          | succ j' =>
            rw [List.get?_cons_succ] at hj
            exact hall _ (List.get?_mem hj)
        · intro j r' hj; omega
      · right
        refine ⟨i + 1, res, by rwa [List.get?_cons_succ], hstep.trans heq,
          lt_trans hlt hbr, ?_, ?_⟩
        · intro j r' hj
          cases j with
          | zero =>
            rw [List.get?_cons_zero] at hj
            rw [(Option.some.inj hj).symm]
            exact le_of_lt hbr
          | succ j' =>
            rw [List.get?_cons_succ] at hj
            exact hall j' r' hj
        · intro j r' hji hj
          cases j with
          | zero =>
            rw [List.get?_cons_zero] at hj
            rw [(Option.some.inj hj).symm]
            exact hbr
          | succ j' =>
            rw [List.get?_cons_succ] at hj
            exact hfirst j' r' (by omega) hj
    · have hstep : selectBest (r :: rest) b.1 (some b) = selectBest rest b.1 (some b) := by
        simp [selectBest, hlt]
      rcases ih b with ⟨heq, hall⟩ | ⟨i, res, hget, heq, hbr, hall, hfirst⟩
      · left
        refine ⟨hstep.trans heq, ?_⟩
        intro x hx
        rcases List.mem_cons.mp hx with hx | hx
        · simpa [hx] using le_of_not_lt hlt
        · exact hall _ hx
      · right
        refine ⟨i + 1, res, by rwa [List.get?_cons_succ], hstep.trans heq, hbr, ?_, ?_⟩
        · intro j r' hj
          cases j with
          | zero =>
            rw [List.get?_cons_zero] at hj
            rw [(Option.some.inj hj).symm]
            exact le_trans (le_of_not_lt hlt) (le_of_lt hbr)
          | succ j' =>
            rw [List.get?_cons_succ] at hj
            exact hall j' r' hj
        · intro j r' hji hj
          cases j with
          | zero =>
            rw [List.get?_cons_zero] at hj
            rw [(Option.some.inj hj).symm]
            exact lt_of_le_of_lt (le_of_not_lt hlt) hbr
          | succ j' =>
            rw [List.get?_cons_succ] at hj
            exact hfirst j' r' (by omega) hj

/-- Before any run has beaten the initial `best_gev`, `selectBest` carries
`none`; the first run exceeding the threshold is adopted. -/
lemma selectBest_none_spec {α : Type _} :
    ∀ (l : List (ℝ × α)) (g : ℝ), (∃ x ∈ l, g < x.1) →
      ∃ i res, l.get? i = some res ∧ selectBest l g none = some res ∧
        g < res.1 ∧ (∀ j r', l.get? j = some r' → r'.1 ≤ res.1) ∧
        (∀ j r', j < i → l.get? j = some r' → r'.1 < res.1) := by
  intro l
  induction l with
  | nil => intro g hpos; simp at hpos
  | cons r rest ih =>
    intro g hpos
    by_cases hlt : g < r.1
    · have hstep : selectBest (r :: rest) g none = selectBest rest r.1 (some r) := by
        simp [selectBest, hlt]
      rcases selectBest_some_spec rest r with ⟨heq, hall⟩ | ⟨i, res, hget, heq, hbr, hall, hfirst⟩
      · refine ⟨0, r, rfl, hstep.trans heq, hlt, ?_, ?_⟩
        · intro j r' hj
          cases j with
          | zero =>
            rw [List.get?_cons_zero] at hj
            rw [(Option.some.inj hj).symm]
          | succ j' =>
            rw [List.get?_cons_succ] at hj
            exact hall _ (List.get?_mem hj)
        · intro j r' hj; omega
      · refine ⟨i + 1, res, by rwa [List.get?_cons_succ], hstep.trans heq,
          lt_trans hlt hbr, ?_, ?_⟩
        · intro j r' hj
          cases j with
          | zero =>
            rw [List.get?_cons_zero] at hj
            rw [(Option.some.inj hj).symm]
            exact le_of_lt hbr
          | succ j' =>
            rw [List.get?_cons_succ] at hj
            exact hall j' r' hj
        · intro j r' hji hj
          cases j with
          | zero =>
            rw [List.get?_cons_zero] at hj
            rw [(Option.some.inj hj).symm]
            exact hbr
          | succ j' =>
            rw [List.get?_cons_succ] at hj
            exact hfirst j' r' (by omega) hj
    · have hstep : selectBest (r :: rest) g none = selectBest rest g none := by
        simp [selectBest, hlt]
      have hpos' : ∃ x ∈ rest, g < x.1 := by
        rcases hpos with ⟨x, hx, hgx⟩
        rcases List.mem_cons.mp hx with hx | hx
        · exact absurd (hx ▸ hgx) hlt
        · exact ⟨x, hx, hgx⟩
      rcases ih g hpos' with ⟨i, res, hget, heq, hgr, hall, hfirst⟩
      refine ⟨i + 1, res, by rwa [List.get?_cons_succ], hstep.trans heq, hgr, ?_, ?_⟩
      · intro j r' hj
        cases j with
        | zero =>
          rw [List.get?_cons_zero] at hj
          rw [(Option.some.inj hj).symm]
          exact le_trans (le_of_not_lt hlt) (le_of_lt hgr)
        | succ j' =>
          rw [List.get?_cons_succ] at hj
          exact hall j' r' hj
      · intro j r' hji hj
        cases j with
        | zero =>
          rw [List.get?_cons_zero] at hj
          rw [(Option.some.inj hj).symm]
          exact lt_of_le_of_lt (le_of_not_lt hlt) hgr
        | succ j' =>
          rw [List.get?_cons_succ] at hj
          exact hfirst j' r' (by omega) hj

/-- C2 (amended): the selection loop of `_do_fit` (`best_gev = 0`, update on
`gev > best_gev`) returns, among restarts of which at least one has positive
GEV, exactly the restart with the strictly highest GEV, and on ties the
first encountered; restarts with index before the winner all have strictly
smaller GEV. -/
theorem C2_multi_restart_selection {α : Type _} (runs : List (ℝ × α))
    (hpos : ∃ x ∈ runs, (0 : ℝ) < x.1) :
    ∃ i res, runs.get? i = some res ∧ selectBest runs 0 none = some res ∧
      (∀ j r', runs.get? j = some r' → r'.1 ≤ res.1) ∧
      (∀ j r', j < i → runs.get? j = some r' → r'.1 < res.1) := by
  rcases selectBest_none_spec runs 0 hpos with ⟨i, res, hget, heq, _, hall, hfirst⟩
  exact ⟨i, res, hget, heq, hall, hfirst⟩

/-- Witness for C2: two runs with equal positive GEV; the first is kept. -/
theorem C2_multi_restart_selection_witness :
    ∃ i res, [((1 : ℝ), (10 : ℕ)), (1, 20)].get? i = some res ∧
      selectBest [((1 : ℝ), (10 : ℕ)), (1, 20)] 0 none = some res ∧
      (∀ j r', [((1 : ℝ), (10 : ℕ)), (1, 20)].get? j = some r' → r'.1 ≤ res.1) ∧
      (∀ j r', j < i → [((1 : ℝ), (10 : ℕ)), (1, 20)].get? j = some r' → r'.1 < res.1) :=
  C2_multi_restart_selection [((1 : ℝ), (10 : ℕ)), (1, 20)]
    ⟨(1, 10), by simp, by norm_num⟩

/-- On all-zero data every restart's GEV is `0/0`, i.e. `0` in this model
(numpy: NaN, which also fails the `gev > best_gev` test). -/
lemma run_mod_kmeans_gev_zero_data {C T K : ℕ} (init : Fin (K + 1) → Fin T)
    (max_iter : ℕ) (thresh : ℝ) :
    (run_mod_kmeans (K := K) (fun (_ : Fin C) (_ : Fin T) => (0 : ℝ))
      init max_iter thresh).1 = 0 := by
  unfold run_mod_kmeans
  simp

/-- Counterexample for C2 as stated: a fit of all-zero data (2 channels, one
sample, one cluster, one restart) returns no restart at all — `best_maps` is
never bound because no GEV beats the initial `best_gev = 0` — contradicting
the claim that the (unique) restart of strictly-highest GEV is returned. -/
theorem C2_counterexample :
    doFit (K := 0) (fun (_ : Fin 2) (_ : Fin 1) => (0 : ℝ)) 1 1 (.seed 0) 1 =
      .ok none := by
  have h10 : ¬ ((1 : ℕ) < 0 + 1) := by norm_num
  unfold doFit doFitRuns run_mod_kmeansE compute_mapsE
  simp only [dif_neg h10]
  simp [doFitRuns, selectBest, run_mod_kmeans_gev_zero_data]

lemma npNorm_nonneg {n : ℕ} (v : Fin n → ℝ) : 0 ≤ npNorm v :=
  Real.sqrt_nonneg _

lemma npNorm_eq_zero_iff {n : ℕ} (v : Fin n → ℝ) : npNorm v = 0 ↔ v = 0 := by
  unfold npNorm
  rw [show (0 : ℝ) = Real.sqrt 0 by simp]
  rw [Real.sqrt_inj (by positivity) le_rfl]
  constructor
  · intro h
    funext i
    have := (Finset.sum_eq_zero_iff_of_nonneg
      (fun j _ => sq_nonneg (v j))).mp h i (Finset.mem_univ i)
    exact pow_eq_zero_iff (n := 2) (by norm_num) |>.mp this
  · intro h; simp [h]

lemma npNorm_div_self {n : ℕ} (v : Fin n → ℝ) (hv : v ≠ 0) :
    npNorm (fun i => v i / npNorm v) = 1 := by
  have hpos : 0 < npNorm v := by
    rcases lt_or_eq_of_le (npNorm_nonneg v) with h | h
    · exact h
    · exact absurd ((npNorm_eq_zero_iff v).mp h.symm) hv
  unfold npNorm at *
  have hsq : ∀ i : Fin n, (v i / Real.sqrt (∑ j, v j ^ 2)) ^ 2
      = v i ^ 2 / (∑ j, v j ^ 2) := by
    intro i
    rw [div_pow, Real.sq_sqrt (by positivity)]
  rw [Finset.sum_congr rfl fun i _ => hsq i, ← Finset.sum_div,
    div_self ?_, Real.sqrt_one]
  intro h0
  rw [h0, Real.sqrt_zero] at hpos
  exact lt_irrefl 0 hpos

/-- Postcondition of one `_compute_maps` update: among the new maps, a row
with no assigned sample is exactly zero, and any nonzero row has unit
Euclidean norm. -/
lemma kmeansIter_rows {C T K : ℕ} (data : Mat C T) (maps : Mat (K + 1) C)
    (k : Fin (K + 1)) :
    ((∀ t, (kmeansIter data maps).2.1 t ≠ k) → (kmeansIter data maps).1 k = 0) ∧
      ((kmeansIter data maps).1 k ≠ 0 → npNorm ((kmeansIter data maps).1 k) = 1) := by
  unfold kmeansIter
  dsimp only
  constructor
  · intro h
    rw [if_neg]
    rintro ⟨t, ht⟩
    exact h t ht
  · intro hne
    by_cases hex : ∃ t,
        npArgmax (fun k' => |∑ c, maps k' c * data c t|) = k
    · rw [if_pos hex] at hne ⊢
      by_cases hw : (fun c => ∑ t,
          if npArgmax (fun k' => |∑ c', maps k' c' * data c' t|) = k
          then data c t * ∑ c', maps k c' * data c' t else 0) = 0
      · exfalso
        apply hne
        funext c
        rw [show (∑ t, if npArgmax (fun k' => |∑ c', maps k' c' * data c' t|) = k
            then data c t * ∑ c', maps k c' * data c' t else 0) = 0 from congrFun hw c]
        simp
      · exact npNorm_div_self _ hw
    · rw [if_neg hex] at hne
      exact absurd rfl hne

/-- With at least one iteration, the K-means loop's result is the update and
assignment of its final executed iteration. -/
lemma kmeansLoop_shape {C T K : ℕ} (data : Mat C T) (thresh : ℝ) :
    ∀ n, 1 ≤ n → ∀ (maps : Mat (K + 1) C) (prev : Option ℝ),
      ∃ m0, kmeansLoop data thresh n maps prev =
        ((kmeansIter data m0).1, (kmeansIter data m0).2.1) := by
  intro n
  induction n with
  | zero => intro h; omega
  | succ m ih =>
    intro _ maps prev
    cases m with
    | zero =>
      refine ⟨maps, ?_⟩
      unfold kmeansLoop
      by_cases hb : convBreak prev (kmeansIter data maps).2.2 thresh
      · simp [hb]
      · simp [hb]
    | succ m' =>
      by_cases hb : convBreak prev (kmeansIter data maps).2.2 thresh
      · exact ⟨maps, by unfold kmeansLoop; simp [hb]⟩
      · rcases ih (by omega) (kmeansIter data maps).1 (some (kmeansIter data maps).2.2)
          with ⟨m0, hm0⟩
        refine ⟨m0, ?_⟩
        unfold kmeansLoop
        simp only [hb, if_false]
        exact hm0

/-- On all-zero data an update step produces the all-zero center matrix
(every weighted sum of assigned samples vanishes, so each row is `0 / ‖0‖`,
assigned or not). -/
lemma kmeansIter_zero_data {C T K : ℕ} (maps : Mat (K + 1) C) :
    (kmeansIter (fun (_ : Fin C) (_ : Fin T) => (0 : ℝ)) maps).1 = fun _ _ => 0 := by
  funext k c
  simp [kmeansIter, ite_apply]

/-- On all-zero data the K-means loop with at least one iteration returns the
all-zero center matrix. -/
lemma kmeansLoop_zero_data {C T K : ℕ} (thresh : ℝ) (n : ℕ) (maps : Mat (K + 1) C)
    (prev : Option ℝ) :
    (kmeansLoop (fun (_ : Fin C) (_ : Fin T) => (0 : ℝ)) thresh (n + 1) maps prev).1
      = fun _ _ => 0 := by
  induction n generalizing maps prev with
  | zero =>
    unfold kmeansLoop
    by_cases hb : convBreak prev
        (kmeansIter (fun (_ : Fin C) (_ : Fin T) => (0 : ℝ)) maps).2.2 thresh
    · simp only [if_pos hb]
      exact kmeansIter_zero_data maps
    · simp only [if_neg hb]
      exact kmeansIter_zero_data maps
  | succ m ih =>
    unfold kmeansLoop
    by_cases hb : convBreak prev
        (kmeansIter (fun (_ : Fin C) (_ : Fin T) => (0 : ℝ)) maps).2.2 thresh
    · simp only [if_pos hb]
      exact kmeansIter_zero_data maps
    · simp only [if_neg hb]
      exact ih _ _

/-- C6 (amended): after a fit with at least one iteration, every
cluster-center row with no sample assigned in the final iteration is exactly
the zero vector, and every nonzero row has unit L2 norm.  (A row can be
nonunit-and-zero also with assigned samples, when the weighted sum of its
samples vanishes — see the counterexample.) -/
theorem C6_center_normalization {C T K : ℕ} (data : Mat C T)
    (init : Fin (K + 1) → Fin T) (max_iter : ℕ) (thresh : ℝ)
    (h1 : 1 ≤ max_iter) (k : Fin (K + 1)) :
    ((∀ t, (compute_maps_core data init max_iter thresh).2 t ≠ k) →
        (compute_maps_core data init max_iter thresh).1 k = 0) ∧
      ((compute_maps_core data init max_iter thresh).1 k ≠ 0 →
        npNorm ((compute_maps_core data init max_iter thresh).1 k) = 1) := by
  unfold compute_maps_core
  rcases kmeansLoop_shape data thresh max_iter h1
      (fun k c => data c (init k) / npNorm fun c' => data c' (init k)) none
    with ⟨m0, hm0⟩
  rw [hm0]
  exact kmeansIter_rows data m0 k

/-- Witness for C6: the amended postcondition instantiated at a concrete
one-channel, one-sample, one-cluster fit with `max_iter = 1`. -/
theorem C6_center_normalization_witness :
    ((∀ t, (compute_maps_core (K := 0) (fun (_ : Fin 1) (_ : Fin 1) => (1 : ℝ))
          (fun _ => 0) 1 1).2 t ≠ 0) →
        (compute_maps_core (K := 0) (fun (_ : Fin 1) (_ : Fin 1) => (1 : ℝ))
          (fun _ => 0) 1 1).1 0 = 0) ∧
      ((compute_maps_core (K := 0) (fun (_ : Fin 1) (_ : Fin 1) => (1 : ℝ))
          (fun _ => 0) 1 1).1 0 ≠ 0 →
        npNorm ((compute_maps_core (K := 0) (fun (_ : Fin 1) (_ : Fin 1) => (1 : ℝ))
          (fun _ => 0) 1 1).1 0) = 1) :=
  C6_center_normalization (fun _ _ => 1) (fun _ => 0) 1 1 (by norm_num) 0

/-- Counterexample for C6 as stated: on all-zero data (2 channels, 1 sample,
1 cluster) the single cluster receives the sample in the final iteration,
yet its returned row is not of unit norm (the weighted sum of its samples is
zero; numpy produces a NaN row there, this model the zero row — in neither
semantics is the row unit-norm). -/
theorem C6_counterexample :
    (∃ t, (compute_maps_core (K := 0) (fun (_ : Fin 2) (_ : Fin 1) => (0 : ℝ))
        (fun _ => 0) 1 1).2 t = 0) ∧
      npNorm ((compute_maps_core (K := 0) (fun (_ : Fin 2) (_ : Fin 1) => (0 : ℝ))
        (fun _ => 0) 1 1).1 0) ≠ 1 := by
  refine ⟨⟨0, Fin.eq_zero _⟩, ?_⟩
  have h1 : (compute_maps_core (K := 0) (fun (_ : Fin 2) (_ : Fin 1) => (0 : ℝ))
      (fun _ => 0) 1 1).1 = fun _ _ => 0 := by
    unfold compute_maps_core
    exact kmeansLoop_zero_data 1 0 _ none
  rw [h1]
  simp [npNorm]

/-! ### The segmentation loop: termination -/

lemma npArgmax_two (g : Fin 2 → ℝ) : npArgmax g = if g 0 < g 1 then 1 else 0 := by
  have h : List.finRange 2 = [0, 1] := rfl
  simp [npArgmax, h]

lemma npArgmin_two (g : Fin 2 → ℝ) : npArgmin g = if g 1 < g 0 then 1 else 0 := by
  have h : List.finRange 2 = [0, 1] := rfl
  simp [npArgmin, h]

lemma npStd_eq_one {n : ℕ} (v : Fin n → ℝ)
    (h : (∑ i, (v i - npMean v) ^ 2) = (n : ℝ)) (hn : (n : ℝ) ≠ 0) :
    npStd v = 1 := by
  unfold npStd
  rw [h, div_self hn, Real.sqrt_one]

lemma c3eps_sq (t : Fin 4) : c3eps t ^ 2 = 1 := by
  unfold c3eps
  by_cases ht : t.val < 2 <;> simp [ht]

lemma c3eps_abs (t : Fin 4) : |c3eps t| = 1 := by
  unfold c3eps
  by_cases ht : t.val < 2 <;> simp [ht]

lemma c3states_std (u : Fin 2) : npStd (c3states u) = 1 := by
  refine npStd_eq_one _ ?_ (by norm_num)
  fin_cases u <;> norm_num [c3states, npMean, Fin.sum_univ_two]

lemma c3data_std (c : Fin 2) : npStd (c3data c) = 1 := by
  refine npStd_eq_one _ ?_ (by norm_num)
  norm_num [c3data, c3eps, npMean, Fin.sum_univ_four,
    show ((0 : Fin 4)).val = 0 from rfl, show ((1 : Fin 4)).val = 1 from rfl,
    show ((2 : Fin 4)).val = 2 from rfl, show ((3 : Fin 4)).val = 3 from rfl]

lemma c3segStates : segStates c3states = c3states := by
  funext u c
  unfold segStates
  rw [c3states_std, div_one]

lemma c3segData : segData c3data = c3data := by
  funext c t
  unfold segData
  rw [c3data_std, div_one]

lemma c3Vvar (t : Fin 4) : segVvar c3data t = 2 := by
  unfold segVvar
  rw [c3segData, Fin.sum_univ_two]
  show c3eps t ^ 2 + c3eps t ^ 2 = 2
  rw [c3eps_sq]
  norm_num

lemma c3SD0 (t : Fin 4) : segSD c3data c3states 0 t = 0 := by
  unfold segSD
  rw [c3segStates, c3segData, Fin.sum_univ_two]
  norm_num [c3states, c3data]

lemma c3SD1 (t : Fin 4) : segSD c3data c3states 1 t = 2 * c3eps t := by
  unfold segSD
  rw [c3segStates, c3segData, Fin.sum_univ_two]
  norm_num [c3states, c3data]

lemma c3labels0 : segLabels0 c3data c3states = fun _ => 1 := by
  funext t
  unfold segLabels0
  rw [npArgmax_two]
  simp only [c3SD0, c3SD1, abs_zero, abs_mul, c3eps_abs, mul_one]
  rw [if_pos (abs_pos.mpr (by norm_num : (2 : ℝ) ≠ 0))]

lemma c3proj0 (t : Fin 4) : segProj c3data c3states (fun _ => 0) t = 0 := by
  unfold segProj
  rw [c3segStates, c3segData]
  norm_num [Fin.sum_univ_succ, c3states, c3data, Fin.ext_iff]

lemma c3proj1 (t : Fin 4) : segProj c3data c3states (fun _ => 1) t = 2 * c3eps t := by
  unfold segProj
  rw [c3segStates, c3segData]
  norm_num [Fin.sum_univ_succ, c3states, c3data, Fin.ext_iff]

lemma c3proj1_sq (t : Fin 4) : segProj c3data c3states (fun _ => 1) t ^ 2 = 4 := by
  rw [c3proj1, mul_pow, c3eps_sq]
  norm_num

lemma c3E : segE c3data c3states = 4 := by
  unfold segE
  rw [c3labels0]
  simp only [c3Vvar, c3proj1_sq]
  rw [Fin.sum_univ_four]
  norm_num

lemma c3Su0 : segSu c3data c3states (fun _ => 0) = 2 := by
  unfold segSu
  simp only [c3Vvar, c3proj0]
  rw [Fin.sum_univ_four]
  norm_num

lemma c3Su1 : segSu c3data c3states (fun _ => 1) = -2 := by
  unfold segSu
  simp only [c3Vvar, c3proj1_sq]
  rw [Fin.sum_univ_four]
  norm_num

lemma segNb_zero {K Nt : ℕ} (lab : Fin Nt → Fin (K + 1)) (u : Fin (K + 1))
    (t : Fin Nt) : segNb 0 lab u t = if lab t = u then 1 else 0 := by
  unfold segNb
  rw [Finset.sum_eq_single t]
  · by_cases hl : lab t = u
    · rw [if_pos ⟨hl, by omega, by omega⟩, if_pos hl]
    · rw [if_neg fun hc => hl hc.1, if_neg hl]
  · intro j hj hne
    apply if_neg
    rintro ⟨h1, h2, h3⟩
    exact hne (Fin.ext (by omega))
  · intro ht
    exact absurd (Finset.mem_univ t) ht

lemma c3step_from1 : segStep c3data c3states 0 (-1) (fun _ => 1) = fun _ => 0 := by
  funext t
  unfold segStep
  rw [npArgmin_two]
  have h10 : ((1 : Fin 2) = 0) = False := eq_false (by decide)
  simp only [c3Vvar, c3SD0, c3SD1, c3E, segNb_zero, h10, if_false,
    eq_self_iff_true, if_true, mul_pow, c3eps_sq, mul_one]
  norm_num

lemma c3step_from0 : segStep c3data c3states 0 (-1) (fun _ => 0) = fun _ => 1 := by
  funext t
  unfold segStep
  rw [npArgmin_two]
  have h01 : ((0 : Fin 2) = 1) = False := eq_false (by decide)
  simp only [c3Vvar, c3SD0, c3SD1, c3E, segNb_zero, h01, if_false,
    eq_self_iff_true, if_true, mul_pow, c3eps_sq, mul_one]
  norm_num

lemma c3loop_cycle (n : ℕ) :
    segLoop c3data c3states 0 (-1) (1 / 100000) n (fun _ => 0) 2 = none ∧
      segLoop c3data c3states 0 (-1) (1 / 100000) n (fun _ => 1) (-2) = none := by
  induction n with
  | zero => exact ⟨rfl, rfl⟩
  | succ m ih =>
    refine ⟨?_, ?_⟩
    · simp only [segLoop, c3step_from0, c3Su1]
      have h1 : |(-2 : ℝ) - 2| = 4 := by
        rw [abs_of_nonpos] <;> norm_num
      have h2 : |(1 / 100000 : ℝ) * -2| = 1 / 50000 := by
        rw [abs_of_nonpos] <;> norm_num
      simp only [h1, h2]
      rw [if_neg (show ¬ ((4 : ℝ) ≤ 1 / 50000) by norm_num)]
      exact ih.2
    · simp only [segLoop, c3step_from1, c3Su0]
      have h1 : |(2 : ℝ) - -2| = 4 := by
        rw [abs_of_nonneg] <;> norm_num
      have h2 : |(1 / 100000 : ℝ) * 2| = 1 / 50000 := by
        rw [abs_of_nonneg] <;> norm_num
      simp only [h1, h2]
      rw [if_neg (show ¬ ((4 : ℝ) ≤ 1 / 50000) by norm_num)]
      exact ih.1

lemma c3run (fuel : ℕ) : segRun c3data c3states 0 (-1) (1 / 100000) fuel = none := by
  unfold segRun
  rw [c3labels0]
  cases fuel with
  | zero => rfl
  | succ m =>
    simp only [segLoop, c3step_from1, c3Su0]
    have h1 : |(2 : ℝ) - 0| = 2 := by
      rw [abs_of_nonneg] <;> norm_num
    have h2 : |(1 / 100000 : ℝ) * 2| = 1 / 50000 := by
      rw [abs_of_nonneg] <;> norm_num
    simp only [h1, h2]
    rw [if_neg (show ¬ ((2 : ℝ) ≤ 1 / 50000) by norm_num)]
    exact (c3loop_cycle m).1

lemma segStep_factor_zero {K Ne Nt : ℕ} (data : Mat Ne Nt)
    (states : Mat (K + 1) Ne) (h : ℕ) (lab lab' : Fin Nt → Fin (K + 1)) :
    segStep data states h 0 lab = segStep data states h 0 lab' := by
  funext t
  unfold segStep
  simp only [zero_mul, sub_zero]

lemma zeroLeadAux_length (f : ℕ) : ∀ l : List ℕ, (zeroLeadAux f l).length = l.length
  | [] => rfl
  | [x] => rfl
  | x :: y :: rest => by
    unfold zeroLeadAux
    by_cases hx : x = f
    · rw [if_pos hx]
      simp [zeroLeadAux_length f (y :: rest)]
    · rw [if_neg hx]

lemma zeroLeadAux_mem (f : ℕ) : ∀ l : List ℕ, ∀ x ∈ zeroLeadAux f l, x = 0 ∨ x ∈ l
  | [] => by intro x hx; simp [zeroLeadAux] at hx
  | [y] => by
    intro x hx
    simp only [zeroLeadAux] at hx
    exact Or.inr hx
  | y :: z :: rest => by
    intro x hx
    unfold zeroLeadAux at hx
    by_cases hy : y = f
    · rw [if_pos hy] at hx
      rcases List.mem_cons.mp hx with h0 | htl
      · exact Or.inl h0
      · rcases zeroLeadAux_mem f (z :: rest) x htl with h0 | hmem
        · exact Or.inl h0
        · exact Or.inr (List.mem_cons_of_mem _ hmem)
    · rw [if_neg hy] at hx
      exact Or.inr hx

lemma zeroLeadAux_getLast (f : ℕ) : ∀ l : List ℕ, l ≠ [] →
    (zeroLeadAux f l).getLast? = some 0 ∨ (zeroLeadAux f l).getLast? = l.getLast?
  | [], hne => absurd rfl hne
  | [x], _ => Or.inr rfl
  | x :: y :: rest, _ => by
    unfold zeroLeadAux
    by_cases hx : x = f
    · rw [if_pos hx]
      have hne : zeroLeadAux f (y :: rest) ≠ [] := by
        intro hemp
        have hlen := zeroLeadAux_length f (y :: rest)
        rw [hemp] at hlen
        simp at hlen
      rcases hzw : zeroLeadAux f (y :: rest) with _ | ⟨w0, ws⟩
      · exact absurd hzw hne
      · rw [List.getLast?_cons_cons]
        rcases zeroLeadAux_getLast f (y :: rest) (by simp) with hl | hr
        · rw [hzw] at hl
          exact Or.inl hl
        · rw [hzw] at hr
          rw [hr]
          exact Or.inr (by rw [List.getLast?_cons_cons])
    · rw [if_neg hx]
      exact Or.inr rfl

lemma zeroLead_length (l : List ℕ) : (zeroLead l).length = l.length := by
  cases l with
  | nil => rfl
  | cons a tl => exact zeroLeadAux_length a (a :: tl)

lemma zeroLead_mem (l : List ℕ) : ∀ x ∈ zeroLead l, x = 0 ∨ x ∈ l := by
  cases l with
  | nil => intro x hx; simp [zeroLead] at hx
  | cons a tl => exact zeroLeadAux_mem a (a :: tl)

lemma zeroLead_getLast (l : List ℕ) (hne : l ≠ []) :
    (zeroLead l).getLast? = some 0 ∨ (zeroLead l).getLast? = l.getLast? := by
  cases l with
  | nil => exact absurd rfl hne
  | cons a tl => exact zeroLeadAux_getLast a (a :: tl) (by simp)

lemma zeroLead_head (a b : ℕ) (r : List ℕ) :
    (zeroLead (a :: b :: r)).head? = some 0 := by
  show (zeroLeadAux a (a :: b :: r)).head? = some 0
  unfold zeroLeadAux
  rw [if_pos rfl]
  rfl

lemma zeroTrail_length (l : List ℕ) : (zeroTrail l).length = l.length := by
  unfold zeroTrail
  rw [List.length_reverse, zeroLead_length, List.length_reverse]

lemma zeroTrail_mem (l : List ℕ) : ∀ x ∈ zeroTrail l, x = 0 ∨ x ∈ l := by
  intro x hx
  unfold zeroTrail at hx
  rw [List.mem_reverse] at hx
  rcases zeroLead_mem _ x hx with h0 | hm
  · exact Or.inl h0
  · exact Or.inr (List.mem_reverse.mp hm)

lemma zero_pipeline (l : List ℕ) (hl : 2 ≤ l.length) :
    (zeroTrail (zeroLead l)).head? = some 0 ∧
      (zeroTrail (zeroLead l)).getLast? = some 0 := by
  rcases l with _ | ⟨a, _ | ⟨b, r⟩⟩
  · simp at hl
  · simp at hl
  · constructor
    · unfold zeroTrail
      rw [List.head?_reverse]
      have hne : (zeroLead (a :: b :: r)).reverse ≠ [] := by
        intro hemp
        have := congrArg List.length hemp
        simp [zeroLead_length] at this
      rcases zeroLead_getLast _ hne with h0 | heq
      · exact h0
      · rw [heq, List.getLast?_reverse, zeroLead_head]
    · unfold zeroTrail
      rw [List.getLast?_reverse]
      have h2 : 2 ≤ (zeroLead (a :: b :: r)).reverse.length := by
        rw [List.length_reverse, zeroLead_length]
        exact hl
      rcases hw : (zeroLead (a :: b :: r)).reverse with _ | ⟨c, _ | ⟨d, s⟩⟩
      · rw [hw] at h2; simp at h2
      · rw [hw] at h2; simp at h2
      · exact zeroLead_head c d s

lemma c3step_zero (lab : Fin 4 → Fin 2) :
    segStep c3data c3states 0 0 lab = fun _ => 1 := by
  funext t
  unfold segStep
  rw [npArgmin_two]
  simp only [c3Vvar, c3SD0, c3SD1, c3E, zero_mul, sub_zero, mul_pow,
    c3eps_sq, mul_one]
  rw [if_pos (by norm_num)]

lemma c4run : segRun c3data c3states 0 0 (1 / 2) 2 = some (fun _ => 1) := by
  unfold segRun
  rw [c3labels0]
  show segLoop c3data c3states 0 0 (1 / 2) (0 + 1 + 1) (fun _ => 1) 0
      = some (fun _ => 1)
  simp only [segLoop, c3step_zero, c3Su1, sub_self, abs_zero]
  rw [if_neg (show ¬ (|(-2 : ℝ) - 0| ≤ |(1 / 2 : ℝ) * -2|) by
        rw [abs_of_nonpos (by norm_num), abs_of_nonpos (by norm_num)]
        norm_num)]
  rw [if_pos (abs_nonneg _)]

lemma npStd_one (v : Fin 1 → ℝ) : npStd v = 0 := by
  unfold npStd npMean
  rw [Fin.sum_univ_one, Fin.sum_univ_one]
  norm_num [Real.sqrt_zero]

/-- C5: the annotated branch of `predict` appends `T - 1` (not `T`) to the
retained-interval onsets, so the retained tail interval is `[last_end, T-1)`
rather than `[last_end, T)`.  At `T = 5`, one excluded interval `[0, 2)` and
half-window `1`, the tail `[2, 5)` has length `3 = 2·1+1` and per the spec
would be segmented; the code's tail pair `(4, 2)` has length `2 < 3` and is
skipped, so the whole output stays unlabeled. -/
theorem C5_annotated_tail_dropped {K Ne : ℕ} (data : Mat Ne 5)
    (states : Mat (K + 1) Ne) (factor crit : ℝ) (fuel : ℕ) :
    predictAnnotated data states 1 factor crit fuel [0] [2]
      = some (List.replicate 5 0) := by
  unfold predictAnnotated
  show predictPairs data states 1 factor crit fuel [(0, 0), (4, 2)]
      (List.replicate 5 0) = some (List.replicate 5 0)
  unfold predictPairs
  rw [if_neg (by norm_num)]
  unfold predictPairs
  rw [if_neg (by norm_num)]
  rfl

/-! ### Polarity invariance of the modified K-means run -/

lemma colSign_sign {T : ℕ} (t0 t : Fin T) :
    colSign t0 t = 1 ∨ colSign t0 t = -1 := by
  unfold colSign
  by_cases h : t = t0 <;> simp [h]

lemma flipCol_eq {C T : ℕ} (data : Mat C T) (t0 : Fin T) (c : Fin C) (t : Fin T) :
    flipCol data t0 c t = colSign t0 t * data c t := by
  unfold flipCol colSign
  by_cases h : t = t0 <;> simp [h]

lemma sign_abs {a : ℝ} (ha : a = 1 ∨ a = -1) : |a| = 1 := by
  rcases ha with rfl | rfl <;> simp

lemma sign_sq {a : ℝ} (ha : a = 1 ∨ a = -1) : a ^ 2 = 1 := by
  rcases ha with rfl | rfl <;> norm_num

lemma sign_mul_self {a : ℝ} (ha : a = 1 ∨ a = -1) : a * a = 1 := by
  rcases ha with rfl | rfl <;> norm_num

lemma npMean_smul {n : ℕ} (a : ℝ) (v : Fin n → ℝ) :
    npMean (fun i => a * v i) = a * npMean v := by
  unfold npMean
  rw [← Finset.mul_sum, mul_div_assoc]

lemma npNorm_smul_sign {n : ℕ} (a : ℝ) (ha : a = 1 ∨ a = -1) (v : Fin n → ℝ) :
    npNorm (fun i => a * v i) = npNorm v := by
  unfold npNorm
  have h : ∀ i : Fin n, (a * v i) ^ 2 = v i ^ 2 := fun i => by
    rw [mul_pow, sign_sq ha, one_mul]
  simp only [h]

lemma flip_act {C T K : ℕ} (data : Mat C T) (t0 : Fin T) (maps : Mat (K + 1) C)
    (σ : Fin (K + 1) → ℝ) (k : Fin (K + 1)) (t : Fin T) :
    (∑ c, (σ k * maps k c) * flipCol data t0 c t)
      = σ k * colSign t0 t * ∑ c, maps k c * data c t := by
  rw [Finset.mul_sum]
  refine Finset.sum_congr rfl fun c _ => ?_
  rw [flipCol_eq]
  ring

lemma flip_act_abs {C T K : ℕ} (data : Mat C T) (t0 : Fin T) (maps : Mat (K + 1) C)
    (σ : Fin (K + 1) → ℝ) (hσ : ∀ k, σ k = 1 ∨ σ k = -1) (k : Fin (K + 1)) (t : Fin T) :
    |∑ c, (σ k * maps k c) * flipCol data t0 c t| = |∑ c, maps k c * data c t| := by
  rw [flip_act, abs_mul, abs_mul, sign_abs (hσ k), sign_abs (colSign_sign t0 t),
    one_mul, one_mul]

lemma flip_seg_eq {C T K : ℕ} (data : Mat C T) (t0 : Fin T) (maps : Mat (K + 1) C)
    (σ : Fin (K + 1) → ℝ) (hσ : ∀ k, σ k = 1 ∨ σ k = -1) :
    (fun t => npArgmax fun k => |∑ c, (σ k * maps k c) * flipCol data t0 c t|)
      = fun t => npArgmax fun k => |∑ c, maps k c * data c t| := by
  funext t
  congr 1
  funext k
  exact flip_act_abs data t0 maps σ hσ k t

lemma flip_seg_eq_t {C T K : ℕ} (data : Mat C T) (t0 : Fin T)
    (maps : Mat (K + 1) C) (σ : Fin (K + 1) → ℝ)
    (hσ : ∀ k, σ k = 1 ∨ σ k = -1) (t : Fin T) :
    (npArgmax fun k => |∑ c, σ k * maps k c * flipCol data t0 c t|)
      = npArgmax fun k => |∑ c, maps k c * data c t| := by
  congr 1
  funext k
  exact flip_act_abs data t0 maps σ hσ k t

lemma flip_actsq_pt {C T : ℕ} (data : Mat C T) (t0 : Fin T) (t : Fin T)
    (a : ℝ) (ha : a = 1 ∨ a = -1) (v : Fin C → ℝ) :
    (∑ c, a * v c * flipCol data t0 c t) ^ 2 = (∑ c, v c * data c t) ^ 2 := by
  have h : (∑ c, a * v c * flipCol data t0 c t)
      = a * colSign t0 t * ∑ c, v c * data c t := by
    rw [Finset.mul_sum]
    refine Finset.sum_congr rfl fun c _ => ?_
    rw [flipCol_eq]
    ring
  rw [h, mul_pow, mul_pow, sign_sq ha, sign_sq (colSign_sign t0 t), one_mul, one_mul]

lemma kmeansIter_flip {C T K : ℕ} (data : Mat C T) (t0 : Fin T)
    (maps : Mat (K + 1) C) (σ : Fin (K + 1) → ℝ)
    (hσ : ∀ k, σ k = 1 ∨ σ k = -1) :
    kmeansIter (flipCol data t0) (fun k c => σ k * maps k c)
      = ((fun k c => σ k * (kmeansIter data maps).1 k c),
          (kmeansIter data maps).2.1, (kmeansIter data maps).2.2) := by
  unfold kmeansIter
  dsimp only
  simp only [flip_seg_eq_t data t0 maps σ hσ]
  have hw : ∀ (k : Fin (K + 1)) (c : Fin C), (∑ t,
        if (npArgmax fun k2 => |∑ c2, maps k2 c2 * data c2 t|) = k
        then flipCol data t0 c t * ∑ c2, σ k * maps k c2 * flipCol data t0 c2 t
        else 0)
      = σ k * ∑ t,
        if (npArgmax fun k2 => |∑ c2, maps k2 c2 * data c2 t|) = k
        then data c t * ∑ c2, maps k c2 * data c2 t
        else 0 := by
    intro k c
    rw [Finset.mul_sum]
    refine Finset.sum_congr rfl fun t _ => ?_
    by_cases ht : (npArgmax fun k2 => |∑ c2, maps k2 c2 * data c2 t|) = k
    · rw [if_pos ht, if_pos ht, flip_act data t0 maps σ k t, flipCol_eq]
      have he := sign_mul_self (colSign_sign t0 t)
      linear_combination (σ k * data c t * (∑ c2, maps k c2 * data c2 t)) * he
    · rw [if_neg ht, if_neg ht, mul_zero]
  have hwf : ∀ k : Fin (K + 1), (fun c => ∑ t,
        if (npArgmax fun k2 => |∑ c2, maps k2 c2 * data c2 t|) = k
        then flipCol data t0 c t * ∑ c2, σ k * maps k c2 * flipCol data t0 c2 t
        else 0)
      = fun c => σ k * ∑ t,
        if (npArgmax fun k2 => |∑ c2, maps k2 c2 * data c2 t|) = k
        then data c t * ∑ c2, maps k c2 * data c2 t
        else 0 := fun k => funext fun c => hw k c
  have hMp : ∀ (k : Fin (K + 1)) (c : Fin C),
      (if ∃ t, (npArgmax fun k2 => |∑ c2, maps k2 c2 * data c2 t|) = k
        then (fun c3 => (∑ t,
            if (npArgmax fun k2 => |∑ c2, maps k2 c2 * data c2 t|) = k
            then flipCol data t0 c3 t * ∑ c2, σ k * maps k c2 * flipCol data t0 c2 t
            else 0) / npNorm fun c3 => ∑ t,
            if (npArgmax fun k2 => |∑ c2, maps k2 c2 * data c2 t|) = k
            then flipCol data t0 c3 t * ∑ c2, σ k * maps k c2 * flipCol data t0 c2 t
            else 0)
        else 0) c
      = σ k * ((if ∃ t, (npArgmax fun k2 => |∑ c2, maps k2 c2 * data c2 t|) = k
        then (fun c3 => (∑ t,
            if (npArgmax fun k2 => |∑ c2, maps k2 c2 * data c2 t|) = k
            then data c3 t * ∑ c2, maps k c2 * data c2 t
            else 0) / npNorm fun c3 => ∑ t,
            if (npArgmax fun k2 => |∑ c2, maps k2 c2 * data c2 t|) = k
            then data c3 t * ∑ c2, maps k c2 * data c2 t
            else 0)
        else 0) c) := by
    intro k c
    by_cases hex : ∃ t, (npArgmax fun k2 => |∑ c2, maps k2 c2 * data c2 t|) = k
    · rw [if_pos hex, if_pos hex]
      rw [hw k c, hwf k, npNorm_smul_sign (σ k) (hσ k), mul_div_assoc]
    · rw [if_neg hex, if_neg hex]
      simp
  simp only [Prod.mk.injEq]
  refine ⟨?_, trivial, ?_⟩
  · funext k c
    exact hMp k c
  · simp only [hMp]
    have hd2 : (∑ c, ∑ t, flipCol data t0 c t ^ 2) = ∑ c, ∑ t, data c t ^ 2 := by
      refine Finset.sum_congr rfl fun c _ => Finset.sum_congr rfl fun t _ => ?_
      rw [flipCol_eq, mul_pow, sign_sq (colSign_sign t0 t), one_mul]
    rw [hd2]
    congr 1
    congr 1
    congr 1
    refine Finset.sum_congr rfl fun t _ => ?_
    exact flip_actsq_pt data t0 t _ (hσ _) _

lemma kmeansLoop_flip {C T K : ℕ} (data : Mat C T) (t0 : Fin T) (thresh : ℝ) :
    ∀ (n : ℕ) (maps : Mat (K + 1) C) (σ : Fin (K + 1) → ℝ),
      (∀ k, σ k = 1 ∨ σ k = -1) → ∀ prev : Option ℝ,
      kmeansLoop (flipCol data t0) thresh n (fun k c => σ k * maps k c) prev
        = ((fun k c => σ k * (kmeansLoop data thresh n maps prev).1 k c),
            (kmeansLoop data thresh n maps prev).2) := by
  intro n
  induction n with
  | zero =>
    intro maps σ hσ prev
    unfold kmeansLoop
    simp only [Prod.mk.injEq]
    refine ⟨trivial, ?_⟩
    funext t
    exact flip_seg_eq_t data t0 maps σ hσ t
  | succ m ih =>
    intro maps σ hσ prev
    unfold kmeansLoop
    rw [kmeansIter_flip data t0 maps σ hσ]
    dsimp only
    by_cases hb : convBreak prev (kmeansIter data maps).2.2 thresh
    · rw [if_pos hb, if_pos hb]
    · rw [if_neg hb, if_neg hb]
      cases m with
      | zero => rfl
      | succ m2 =>
        exact ih (kmeansIter data maps).1 σ hσ (some (kmeansIter data maps).2.2)

lemma compute_maps_core_flip {C T K : ℕ} (data : Mat C T) (t0 : Fin T)
    (init : Fin (K + 1) → Fin T) (max_iter : ℕ) (thresh : ℝ) :
    compute_maps_core (flipCol data t0) init max_iter thresh
      = ((fun k c => colSign t0 (init k) *
            (compute_maps_core data init max_iter thresh).1 k c),
          (compute_maps_core data init max_iter thresh).2) := by
  unfold compute_maps_core
  dsimp only
  have h0 : (fun (k : Fin (K + 1)) (c : Fin C) => flipCol data t0 c (init k) /
        npNorm fun c2 => flipCol data t0 c2 (init k))
      = fun (k : Fin (K + 1)) (c : Fin C) => colSign t0 (init k) *
          (data c (init k) / npNorm fun c2 => data c2 (init k)) := by
    funext k c
    have hcol : (fun c2 => flipCol data t0 c2 (init k))
        = fun c2 => colSign t0 (init k) * data c2 (init k) := by
      funext c2
      exact flipCol_eq data t0 c2 (init k)
    rw [flipCol_eq, hcol, npNorm_smul_sign _ (colSign_sign t0 (init k)), mul_div_assoc]
  rw [h0]
  exact kmeansLoop_flip data t0 thresh max_iter
    (fun k c => data c (init k) / npNorm fun c2 => data c2 (init k))
    (fun k => colSign t0 (init k)) (fun k => colSign_sign t0 (init k)) none

lemma corr_vectors_sign {n m : ℕ} (A B : Mat n m) (s1 s2 : Fin m → ℝ)
    (h1 : ∀ j, s1 j = 1 ∨ s1 j = -1) (h2 : ∀ j, s2 j = 1 ∨ s2 j = -1) (j : Fin m) :
    corr_vectors (fun i j2 => s1 j2 * A i j2) (fun i j2 => s2 j2 * B i j2) j
      = s1 j * s2 j * corr_vectors A B j := by
  unfold corr_vectors
  dsimp only
  rw [Finset.mul_sum]
  refine Finset.sum_congr rfl fun i _ => ?_
  rw [npMean_smul (s1 j) (fun i2 => A i2 j), npMean_smul (s2 j) (fun i2 => B i2 j)]
  simp only [← mul_sub]
  rw [npNorm_smul_sign (s1 j) (h1 j), npNorm_smul_sign (s2 j) (h2 j)]
  ring

lemma sign_sq_prod {e s d x : ℝ} (he : e = 1 ∨ e = -1) (hs : s = 1 ∨ s = -1) :
    ((e * d) * ((e * s) * x)) ^ 2 = (d * x) ^ 2 := by
  have h : (e * d) * ((e * s) * x) = (e * e) * (s * (d * x)) := by ring
  rw [h, sign_mul_self he, one_mul, mul_pow, sign_sq hs, one_mul]

/-- C1: polarity invariance of the fit.  Negating any single sample column
changes neither the GEV of the modified K-means run nor the cluster any
sample (the negated one included) is assigned to: the assignment rule and
the objective only see the absolute value of the activation, the centers of
the flipped run differ from the original ones only by per-row signs, and
the squared correlation term of the GEV is sign-blind. -/
theorem C1_polarity_invariance {C T K : ℕ} (data : Mat C T) (t0 : Fin T)
    (init : Fin (K + 1) → Fin T) (max_iter : ℕ) (thresh : ℝ) :
    (run_mod_kmeans (flipCol data t0) init max_iter thresh).1
        = (run_mod_kmeans data init max_iter thresh).1 ∧
      ∀ t, (run_mod_kmeans (flipCol data t0) init max_iter thresh).2.2 t
        = (run_mod_kmeans data init max_iter thresh).2.2 t := by
  unfold run_mod_kmeans
  dsimp only
  rw [compute_maps_core_flip data t0 init max_iter thresh]
  dsimp only
  simp only [flip_seg_eq_t data t0 (compute_maps_core data init max_iter thresh).1
    (fun k => colSign t0 (init k)) (fun k => colSign_sign t0 (init k))]
  have hA : flipCol data t0 = fun (i : Fin C) (j : Fin T) => colSign t0 j * data i j :=
    funext fun i => funext fun j => flipCol_eq data t0 i j
  rw [hA]
  constructor
  · simp only [corr_vectors_sign data
      (fun c2 t2 => (compute_maps_core data init max_iter thresh).1
        ((npArgmax fun k => |∑ c, (compute_maps_core data init max_iter thresh).1 k c
            * data c t2|)) c2)
      (colSign t0)
      (fun t2 => colSign t0 (init ((npArgmax fun k =>
        |∑ c, (compute_maps_core data init max_iter thresh).1 k c * data c t2|))))
      (fun j => colSign_sign t0 j)
      (fun j => colSign_sign t0 (init _))]
    congr 1
    · refine Finset.sum_congr rfl fun t _ => Finset.sum_congr rfl fun c _ => ?_
      exact sign_sq_prod (colSign_sign t0 t) (colSign_sign t0 (init _))
    · refine Finset.sum_congr rfl fun c _ => Finset.sum_congr rfl fun t _ => ?_
      rw [mul_pow, sign_sq (colSign_sign t0 t), one_mul]
  · intro t
    trivial

end Pycrostates
